import Mathlib

/-!
Verification of the lccc-siphash core (state engine, raw hasher, stream hasher).

The Rust sources are shallowly embedded: 64-bit machine words are `Nat` values
with explicit reduction modulo `2 ^ 64` wherever the machine operation wraps,
byte slices are `List Nat` (each element a byte value), and the SSE register
state of `src/siphash/x86.rs` is a pair of 64-bit lane pairs.  The build
configuration modelled is the x86 one actually provided under `src/`
(little endian, `target_feature = sse3`); both the `avx2` and the
non-`avx2` realizations of `rotate_lanes_epi64` are embedded.
-/

namespace LcccSiphash

/-- The modulus of 64-bit machine arithmetic. -/
def two64 : Nat := 2 ^ 64

/-- Wrapping 64-bit subtraction (the semantics of `_mm_sub_epi64` per lane and
of release-mode `u64` subtraction). -/
def usub (a b : Nat) : Nat := (a + (two64 - b % two64)) % two64

/- Magic constants from `src/siphash.rs` lines 6-9. -/

/-- First SipHash initialization constant. -/
def SIPHASH_MAG1 : Nat := 0x736f6d6570736575
/-- Second SipHash initialization constant. -/
def SIPHASH_MAG2 : Nat := 0x646f72616e646f6d
/-- Third SipHash initialization constant. -/
def SIPHASH_MAG3 : Nat := 0x6c7967656e657261
/-- Fourth SipHash initialization constant. -/
def SIPHASH_MAG4 : Nat := 0x7465646279746573

/-! SSE intrinsics used by `src/siphash/x86.rs`, as operations on a pair of
64-bit lanes `(lane0, lane1)`.  Lane 0 is the low 64 bits of the register. -/

/-- The operation `_mm_set_epi64x(e1, e0)` sets lane 1 to `e1` and lane 0 to `e0`
(the intrinsic takes its arguments in reversed order). -/
def mm_set_epi64x (e1 e0 : Nat) : Nat × Nat := (e0, e1)

/-- The operation `_mm_add_epi64`: lane-wise wrapping 64-bit addition. -/
def mm_add_epi64 (a b : Nat × Nat) : Nat × Nat :=
  ((a.1 + b.1) % two64, (a.2 + b.2) % two64)

/-- The operation `_mm_sub_epi64`: lane-wise wrapping 64-bit subtraction. -/
def mm_sub_epi64 (a b : Nat × Nat) : Nat × Nat :=
  (usub a.1 b.1, usub a.2 b.2)

/-- The operation `_mm_xor_si128`: bitwise xor of both lanes. -/
def mm_xor_si128 (a b : Nat × Nat) : Nat × Nat :=
  (a.1 ^^^ b.1, a.2 ^^^ b.2)

/-- The operation `_mm_or_si128`: bitwise or of both lanes. -/
def mm_or_si128 (a b : Nat × Nat) : Nat × Nat :=
  (a.1 ||| b.1, a.2 ||| b.2)

/-- The operation `_mm_unpacklo_epi64`: gather the low (lane-0) halves of both operands. -/
def mm_unpacklo_epi64 (a b : Nat × Nat) : Nat × Nat := (a.1, b.1)

/-- The operation `_mm_unpackhi_epi64`: gather the high (lane-1) halves of both operands. -/
def mm_unpackhi_epi64 (a b : Nat × Nat) : Nat × Nat := (a.2, b.2)

/-- The operation `_mm_sll_epi64`: shift both lanes left by the low 64 bits of `count`
(a count above 63 yields zero). -/
def mm_sll_epi64 (a count : Nat × Nat) : Nat × Nat :=
  if count.1 ≤ 63 then ((a.1 <<< count.1) % two64, (a.2 <<< count.1) % two64)
  else (0, 0)

/-- The operation `_mm_srl_epi64`: shift both lanes right by the low 64 bits of `count`
(a count above 63 yields zero). -/
def mm_srl_epi64 (a count : Nat × Nat) : Nat × Nat :=
  if count.1 ≤ 63 then (a.1 >>> count.1, a.2 >>> count.1)
  else (0, 0)

/-- The operation `_mm_sllv_epi64`: per-lane variable left shift (AVX2). -/
def mm_sllv_epi64 (a count : Nat × Nat) : Nat × Nat :=
  ((if count.1 ≤ 63 then (a.1 <<< count.1) % two64 else 0),
   (if count.2 ≤ 63 then (a.2 <<< count.2) % two64 else 0))

/-- The operation `_mm_srlv_epi64`: per-lane variable right shift (AVX2). -/
def mm_srlv_epi64 (a count : Nat × Nat) : Nat × Nat :=
  ((if count.1 ≤ 63 then a.1 >>> count.1 else 0),
   (if count.2 ≤ 63 then a.2 >>> count.2 else 0))

/-- The operation `_mm_shuffle_epi32(a, 0x1E)`: with `a` viewed as four 32-bit elements
`e0..e3`, produce `(e2, e3, e1, e0)`; as 64-bit lanes this maps
`(x0, x1)` to `(x1, (x0 >>> 32) + (x0 % 2 ^ 32) * 2 ^ 32)`. -/
def mm_shuffle_epi32_1e (a : Nat × Nat) : Nat × Nat :=
  (a.2, (a.1 >>> 32) + (a.1 % 2 ^ 32) * 2 ^ 32)

/-- The operation `rotate_lanes_epi64`, `target_feature = avx2` variant
(`src/siphash/x86.rs` lines 13-23): per-lane left rotation via variable
vector shifts. -/
def rotate_lanes_epi64_avx2 (v count : Nat × Nat) : Nat × Nat :=
  let lshift := count
  let rshift := mm_sub_epi64 (mm_set_epi64x 64 64) count
  let left := mm_sllv_epi64 v lshift
  let right := mm_srlv_epi64 v rshift
  mm_or_si128 left right

/-- The operation `rotate_lanes_epi64`, non-`avx2` variant (`src/siphash/x86.rs`
lines 25-48): composed fixed shifts plus shuffles. -/
def rotate_lanes_epi64_sse3 (v count : Nat × Nat) : Nat × Nat :=
  let lshift := count
  let rshift := mm_sub_epi64 (mm_set_epi64x 64 64) count
  let lsh1 := mm_unpacklo_epi64 lshift lshift
  let lsh2 := mm_sub_epi64 (mm_unpackhi_epi64 lshift lshift) lsh1
  let rsh1 := mm_unpackhi_epi64 rshift rshift
  let rsh2 := mm_sub_epi64 (mm_unpacklo_epi64 rshift rshift) rsh1
  let int1 := mm_sll_epi64 v lsh1
  let int2 := mm_sll_epi64 int1 lsh2
  let int3 := mm_srl_epi64 v rsh1
  let int4 := mm_srl_epi64 int3 rsh2
  let int5 := mm_shuffle_epi32_1e int2
  let int6 := mm_shuffle_epi32_1e int4
  let sll_res := mm_unpacklo_epi64 int1 int5
  let srl_res := mm_unpacklo_epi64 int3 int6
  mm_or_si128 sll_res srl_res

/-- The operation `SipHashState::halfround` (`src/siphash/x86.rs` lines 88-113),
parameterized over the `rotate_lanes_epi64` realization in use:
`s0` holds lanes `[v0, v2]`, `s1` holds `[v1, v3]`,
`rotate` holds `[rot1, rot3]`. -/
def halfround (rot : Nat × Nat → Nat × Nat → Nat × Nat)
    (s0 s1 rotate : Nat × Nat) : (Nat × Nat) × (Nat × Nat) :=
  let s0 := mm_add_epi64 s0 s1
  let s1 := rot s1 rotate
  let s1 := mm_xor_si128 s1 s0
  let s0 := mm_shuffle_epi32_1e s0
  (s0, s1)

/-- The SSE `SipHashState` (`src/siphash/x86.rs` line 51): register `r0`
holds lanes `[v0, v2]` and register `r1` holds lanes `[v1, v3]`. -/
structure SipHashState where
  r0 : Nat × Nat
  r1 : Nat × Nat
deriving DecidableEq

namespace SipHashState

/-- The operation `SipHashState::from_keys`: `r0 = [k0 ^ MAG1, k0 ^ MAG3]`,
`r1 = [k1 ^ MAG2, k1 ^ MAG4]`. -/
def from_keys (k0 k1 : Nat) : SipHashState :=
  ⟨(k0 ^^^ SIPHASH_MAG1, k0 ^^^ SIPHASH_MAG3),
   (k1 ^^^ SIPHASH_MAG2, k1 ^^^ SIPHASH_MAG4)⟩

/-- The operation `update_before_rounds`: xor `word` into s3 (lane 1 of `r1`),
via `_mm_set_epi64x(word, 0)`. -/
def update_before_rounds (s : SipHashState) (word : Nat) : SipHashState :=
  { s with r1 := mm_xor_si128 s.r1 (mm_set_epi64x word 0) }

/-- The operation `update_after_rounds`: xor `word` into s0 (lane 0 of `r0`),
via `_mm_set_epi64x(0, word)`. -/
def update_after_rounds (s : SipHashState) (word : Nat) : SipHashState :=
  { s with r0 := mm_xor_si128 s.r0 (mm_set_epi64x 0 word) }

/-- The operation `update_before_final`: xor `0xff` into s2 (lane 1 of `r0`),
via `_mm_set_epi64x(0xff, 0)`. -/
def update_before_final (s : SipHashState) : SipHashState :=
  { s with r0 := mm_xor_si128 s.r0 (mm_set_epi64x 0xff 0) }

/-- The operation `SipHashState::finish`: xor the two registers together and then the
two lanes of the result. -/
def finish (s : SipHashState) : Nat :=
  let x := mm_xor_si128 s.r0 s.r1
  x.1 ^^^ x.2

/-- The operation `SipHashState::round` in the `avx2` build configuration: two half rounds
with rotate pairs `_mm_set_epi64x(16, 13)` and `_mm_set_epi64x(21, 17)`. -/
def round (s : SipHashState) : SipHashState :=
  let p1 := halfround rotate_lanes_epi64_avx2 s.r0 s.r1 (mm_set_epi64x 16 13)
  let p2 := halfround rotate_lanes_epi64_avx2 p1.1 p1.2 (mm_set_epi64x 21 17)
  ⟨p2.1, p2.2⟩

/-- The operation `SipHashState::round` in the `sse3`-without-`avx2` build configuration:
identical structure, but with the composed-shift rotate realization. -/
def round_sse3 (s : SipHashState) : SipHashState :=
  let p1 := halfround rotate_lanes_epi64_sse3 s.r0 s.r1 (mm_set_epi64x 16 13)
  let p2 := halfround rotate_lanes_epi64_sse3 p1.1 p1.2 (mm_set_epi64x 21 17)
  ⟨p2.1, p2.2⟩

/-- The loop `for _ in 0..R { self.round(); }`. -/
def rounds : Nat → SipHashState → SipHashState
  | 0, s => s
  | n + 1, s => rounds n s.round

/-- The operation `SipHashState::update_and_round::<R>`: `update_before_rounds`, `R` rounds,
`update_after_rounds`. -/
def update_and_round (R : Nat) (s : SipHashState) (val : Nat) : SipHashState :=
  (rounds R (s.update_before_rounds val)).update_after_rounds val

/-- The operation `SipHashState::update_and_final::<R>`: `update_before_final`, `R` rounds,
`finish`. -/
def update_and_final (R : Nat) (s : SipHashState) : Nat :=
  (rounds R s.update_before_final).finish

end SipHashState

/-- The logical state array `[s0, s1, s2, s3]` of the specification. -/
structure SipLogical where
  v0 : Nat
  v1 : Nat
  v2 : Nat
  v3 : Nat
deriving DecidableEq

/-- Read the logical state array out of the physical SSE layout
(`r0 = [v0, v2]`, `r1 = [v1, v3]`). -/
def toLogical (s : SipHashState) : SipLogical :=
  ⟨s.r0.1, s.r1.1, s.r0.2, s.r1.2⟩

/-- Left rotation of a 64-bit word, for rotation amounts `0 < n < 64`. -/
def rotl64 (x n : Nat) : Nat := ((x <<< n) % two64) ||| (x >>> (64 - n))

/-- Modelled from the spec: the canonical scalar SipHash ARX round
`v0+=v1; v1=rotl(v1,13); v1^=v0; v0=rotl(v0,32); v2+=v3; v3=rotl(v3,16);
v3^=v2; v0+=v3; v3=rotl(v3,21); v3^=v0; v2+=v1; v1=rotl(v1,17); v1^=v2;
v2=rotl(v2,32)`, additions modulo `2 ^ 64`. -/
def specRound (s : SipLogical) : SipLogical :=
  let v0 := (s.v0 + s.v1) % two64
  let v1 := rotl64 s.v1 13
  let v1 := v1 ^^^ v0
  let v0 := rotl64 v0 32
  let v2 := (s.v2 + s.v3) % two64
  let v3 := rotl64 s.v3 16
  let v3 := v3 ^^^ v2
  let v0 := (v0 + v3) % two64
  let v3 := rotl64 v3 21
  let v3 := v3 ^^^ v0
  let v2 := (v2 + v1) % two64
  let v1 := rotl64 v1 17
  let v1 := v1 ^^^ v2
  let v2 := rotl64 v2 32
  ⟨v0, v1, v2, v3⟩

/-! Byte-level helpers.  A byte slice `&[u8]` is embedded as `List Nat` with
elements below 256; the target is little endian, so `u64::from_ne_bytes` and
`u64::from_le_bytes` coincide and `to_le()` is the identity. -/

/-- The operation `u64::from_le_bytes`: assemble a word from bytes, least significant
byte first. -/
def u64_from_le_bytes (l : List Nat) : Nat :=
  l.foldr (fun b w => b + 256 * w) 0

/-- The operation `slice::as_chunks::<8>`: the maximal list of consecutive 8-byte chunks,
paired with the remaining fewer-than-8 trailing bytes. -/
def asChunks8 : List Nat → List (List Nat) × List Nat
  | b0 :: b1 :: b2 :: b3 :: b4 :: b5 :: b6 :: b7 :: rest =>
    let p := asChunks8 rest
    ([b0, b1, b2, b3, b4, b5, b6, b7] :: p.1, p.2)
  | l => ([], l)

/-- Overwrite the byte at position `i` (little-endian byte order) of the
64-bit word `t` with `b`. -/
def setByte (t i b : Nat) : Nat :=
  t % 2 ^ (8 * i) + b * 2 ^ (8 * i) + ((t >>> (8 * (i + 1))) <<< (8 * (i + 1)))

/-- The `copy_from_slice` into the transmuted `&mut [u8; 8]` view of the tail
word: write the bytes of `l` into consecutive byte positions starting at `i`. -/
def writeTailBytes (t i : Nat) : List Nat → Nat
  | [] => t
  | b :: bs => writeTailBytes (setByte t i b) (i + 1) bs

/-- The type `RawSipHasher<C, D>` (`src/siphash.rs` line 126): a wrapper around a
`SipHashState`.  The round counts `C` and `D` are passed explicitly to each
operation here, mirroring the const generics. -/
structure RawSipHasher where
  state : SipHashState
deriving DecidableEq

namespace RawSipHasher

/-- The operation `RawSipHasher::from_keys`. -/
def from_keys (k0 k1 : Nat) : RawSipHasher :=
  ⟨SipHashState.from_keys k0 k1⟩

/-- The operation `RawSipHasher::update`: `update_and_round::<C>`. -/
def update (C : Nat) (h : RawSipHasher) (word : Nat) : RawSipHasher :=
  ⟨SipHashState.update_and_round C h.state word⟩

/-- The operation `RawSipHasher::finish`: the finalization steps on a fresh copy of the
state (`to_le()` is the identity on a little-endian target). -/
def finish (D : Nat) (h : RawSipHasher) : Nat :=
  SipHashState.update_and_final D h.state

/-- The operation `RawSipHasher::update_from_bytes` (`src/siphash.rs` lines 169-181):
full 8-byte chunks through `update`; a nonempty remainder is zero-padded
to 8 bytes and also passed through `update`. -/
def update_from_bytes (C : Nat) (h : RawSipHasher) (bytes : List Nat) :
    RawSipHasher :=
  let p := asChunks8 bytes
  let h := p.1.foldl (fun acc chunk => update C acc (u64_from_le_bytes chunk)) h
  let v := p.2 ++ List.replicate (8 - p.2.length) 0x00
  if p.2 ≠ [] then update C h (u64_from_le_bytes v) else h

/-- The operation `RawSipHasher::update_from_string` (`src/siphash.rs` lines 183-197):
like `update_from_bytes` but the final block, possibly-empty remainder
included, is padded with `0xFF` bytes and always fed to `update`. -/
def update_from_string (C : Nat) (h : RawSipHasher) (st : List Nat) :
    RawSipHasher :=
  let p := asChunks8 st
  let h := p.1.foldl (fun acc chunk => update C acc (u64_from_le_bytes chunk)) h
  let v := p.2 ++ List.replicate (8 - p.2.length) 0xFF
  update C h (u64_from_le_bytes v)

end RawSipHasher

/-- The type `SipHasher<C, D>` (`src/siphash.rs` lines 266-271): a `SipHashState`,
a pending tail word, the count of valid tail bytes, and a running byte
total. -/
structure SipHasher where
  state : SipHashState
  tail : Nat
  ntail : Nat
  bytes : Nat
deriving DecidableEq

namespace SipHasher

/-- The operation `SipHasher::new_with_keys`. -/
def new_with_keys (k0 k1 : Nat) : SipHasher :=
  { state := SipHashState.from_keys k0 k1, tail := 0, ntail := 0, bytes := 0 }

/-- The operation `SipHasher::update`: `update_and_round::<C>` on the inner state. -/
def update (C : Nat) (h : SipHasher) (word : Nat) : SipHasher :=
  { h with state := SipHashState.update_and_round C h.state word }

/-- The second half of `Hasher::write` for `SipHasher` (`src/siphash.rs`
lines 329-337): consume full 8-byte chunks via `update`
(`u64::from_ne_bytes` is little endian here); afterwards the source copies
the trailing remainder into a fresh local array `tail` — not into
`self.tail` — and sets `self.ntail` to the remainder length, so only
`ntail` and the state change in this phase. -/
def writeChunks (C : Nat) (h : SipHasher) (s : List Nat) : SipHasher :=
  let p := asChunks8 s
  let st := p.1.foldl
    (fun acc chunk => SipHashState.update_and_round C acc (u64_from_le_bytes chunk)) h.state
  { h with state := st, ntail := p.2.length }

/-- The operation `Hasher::write` for `SipHasher` (`src/siphash.rs` lines 311-338):
add the input length to `bytes`; if a tail is pending, top it up from the
front of the input, flushing through `update` exactly when it reaches
8 bytes and returning early otherwise (`self.ntail` is left unchanged in
both branches); then hand the rest to the chunk phase. -/
def write (C : Nat) (h : SipHasher) (s : List Nat) : SipHasher :=
  let bytes' := h.bytes + s.length
  if 0 < h.ntail then
    let required := min s.length (8 - h.ntail)
    let r := s.drop required
    let tail' := writeTailBytes h.tail h.ntail (s.take required)
    if required + h.ntail = 8 then
      writeChunks C
        { state := SipHashState.update_and_round C h.state tail',
          tail := tail', ntail := h.ntail, bytes := bytes' } r
    else
      { h with tail := tail', bytes := bytes' }
  else
    writeChunks C { h with bytes := bytes' } s

/-- The operation `Hasher::finish` for `SipHasher` (`src/siphash.rs` lines 340-361) on a
little-endian target (the `cfg!(target_endian = "big")` shift is compiled
out, `to_le()` is the identity): mask the tail word with
`(2u64 << ((ntail << 3) - 1)) - 1` computed in wrapping `u64` arithmetic,
or in the length tag unless `ntail == 8`, feed the word through `update`
on a copy, then `update_and_final::<D>`. -/
def finish (C D : Nat) (h : SipHasher) : Nat :=
  let st :=
    if 0 < h.ntail then
      let word := h.tail
      let word := word &&& usub ((2 <<< ((h.ntail <<< 3) - 1)) % two64) 1
      let word :=
        if h.ntail ≠ 8 then word ||| (((h.bytes % two64) &&& 0xFF) <<< 56)
        else word
      (update C h word).state
    else
      (update C h (((h.bytes % two64) &&& 0xFF) <<< 56)).state
  SipHashState.update_and_final D st

end SipHasher

/-! Specification-side definitions, transcribed from the spec's words and to
be compared against the source-level definitions above. -/

/-- Modelled from the spec: `update_from_bytes` "splits into 8-byte
little-endian chunks, calling `update` on each; a final 1-7-byte remainder
is zero-padded to 8 bytes and also passed through `update`"; an exact
multiple of 8 appends no extra block.  This is the resulting word
sequence. -/
def zeroPaddedWords : List Nat → List Nat
  | [] => []
  | b0 :: b1 :: b2 :: b3 :: b4 :: b5 :: b6 :: b7 :: rest =>
    u64_from_le_bytes [b0, b1, b2, b3, b4, b5, b6, b7] :: zeroPaddedWords rest
  | l => [u64_from_le_bytes (l ++ List.replicate (8 - l.length) 0x00)]

/-- Modelled from the spec: `update_from_string` uses "identical chunking,
but the final remainder (including a possibly-empty one) is padded with
`0xFF`".  This is the resulting word sequence. -/
def ffPaddedWords : List Nat → List Nat
  | b0 :: b1 :: b2 :: b3 :: b4 :: b5 :: b6 :: b7 :: rest =>
    u64_from_le_bytes [b0, b1, b2, b3, b4, b5, b6, b7] :: ffPaddedWords rest
  | l => [u64_from_le_bytes (l ++ List.replicate (8 - l.length) 0xFF)]

/-- The byte-level encoding realized by `update_from_string`: the input bytes
followed by 1 to 8 `0xFF` padding bytes up to the next multiple of 8. -/
def encodeString (s : List Nat) : List Nat :=
  s ++ List.replicate (8 - s.length % 8) 0xFF

/-- Modelled from the spec: the final message word built by
`SipHasher::finish` — for `ntail > 0` the tail word with the bytes at
positions `ntail` and above masked off, with `(total_bytes mod 256)` or-ed
into the most significant byte unless `ntail == 8`; for `ntail == 0` a word
that is zero except for `(total_bytes mod 256)` in its top byte. -/
def finalWordSpec (h : SipHasher) : Nat :=
  if 0 < h.ntail then
    (h.tail % 2 ^ (8 * h.ntail)) |||
      (if h.ntail = 8 then 0 else (h.bytes % 256) <<< 56)
  else (h.bytes % 256) <<< 56

/-! Operation traces, used to express that `finish` is non-destructive:
it takes `&self` in the source and operates on a copy. -/

/-- An operation on a `SipHasher`. -/
inductive StreamOp where
  | write (s : List Nat)
  | finish

/-- Run a list of operations on a `SipHasher`, returning the final hasher
and the list of values produced by the `finish` operations.  A `finish`
reads the current hasher without replacing it, exactly as the `&self`
method does. -/
def SipHasher.runOps (C D : Nat) (h : SipHasher) : List StreamOp → SipHasher × List Nat
  | [] => (h, [])
  | StreamOp.write s :: ops => SipHasher.runOps C D (SipHasher.write C h s) ops
  | StreamOp.finish :: ops =>
    let r := SipHasher.runOps C D h ops
    (r.1, SipHasher.finish C D h :: r.2)

/-- An operation on a `RawSipHasher`. -/
inductive RawOp where
  | update (w : Nat)
  | updateBytes (l : List Nat)
  | finish

/-- Run a list of operations on a `RawSipHasher`, returning the final hasher
and the list of values produced by the `finish` operations. -/
def RawSipHasher.runOps (C D : Nat) (h : RawSipHasher) : List RawOp → RawSipHasher × List Nat
  | [] => (h, [])
  | RawOp.update w :: ops => RawSipHasher.runOps C D (RawSipHasher.update C h w) ops
  | RawOp.updateBytes l :: ops =>
    RawSipHasher.runOps C D (RawSipHasher.update_from_bytes C h l) ops
  | RawOp.finish :: ops =>
    let r := RawSipHasher.runOps C D h ops
    (r.1, RawSipHasher.finish D h :: r.2)

/-- The `SipHasher` states reachable from `new_with_keys` by `write` calls:
keys are `u64` values and written slices contain byte values. -/
inductive Reachable (C : Nat) : SipHasher → Prop where
  | new_keys (k0 k1 : Nat) (h0 : k0 < two64) (h1 : k1 < two64) :
      Reachable C (SipHasher.new_with_keys k0 k1)
  | write_step (h : SipHasher) (s : List Nat) (hh : Reachable C h)
      (hs : ∀ b ∈ s, b < 256) : Reachable C (SipHasher.write C h s)

/-! Helper lemmas about the chunking functions. -/

theorem eight_cons (l : List Nat) (h : 8 ≤ l.length) :
    ∃ b0 b1 b2 b3 b4 b5 b6 b7 rest,
      l = b0 :: b1 :: b2 :: b3 :: b4 :: b5 :: b6 :: b7 :: rest := by
  rcases l with _ | ⟨b0, l⟩
  · simp at h
  rcases l with _ | ⟨b1, l⟩
  · simp at h
  rcases l with _ | ⟨b2, l⟩
  · simp at h
  rcases l with _ | ⟨b3, l⟩
  · simp at h
  rcases l with _ | ⟨b4, l⟩
  · simp at h
  rcases l with _ | ⟨b5, l⟩
  · simp at h
  rcases l with _ | ⟨b6, l⟩
  · simp at h
  rcases l with _ | ⟨b7, l⟩
  · simp at h
  exact ⟨b0, b1, b2, b3, b4, b5, b6, b7, l, rfl⟩

theorem chunk_induction (P : List Nat → Prop) (hnil : P [])
    (hshort : ∀ l : List Nat, l ≠ [] → l.length < 8 → P l)
    (hcons : ∀ b0 b1 b2 b3 b4 b5 b6 b7 rest, P rest →
      P (b0 :: b1 :: b2 :: b3 :: b4 :: b5 :: b6 :: b7 :: rest)) :
    ∀ l, P l := by
  suffices H : ∀ n (l : List Nat), l.length ≤ n → P l by
    exact fun l => H l.length l le_rfl
  intro n
  induction n with
  | zero =>
    intro l hl
    have hl0 : l = [] := List.length_eq_zero.mp (Nat.le_zero.mp hl)
    rw [hl0]
    exact hnil
  | succ n ih =>
    intro l hl
    by_cases h8 : 8 ≤ l.length
    · obtain ⟨b0, b1, b2, b3, b4, b5, b6, b7, rest, rfl⟩ := eight_cons l h8
      apply hcons
      apply ih
      simp only [List.length_cons] at hl
      omega
    · rcases eq_or_ne l [] with rfl | hne
      · exact hnil
      · exact hshort l hne (by omega)

theorem asChunks8_cons (b0 b1 b2 b3 b4 b5 b6 b7 : Nat) (rest : List Nat) :
    asChunks8 (b0 :: b1 :: b2 :: b3 :: b4 :: b5 :: b6 :: b7 :: rest) =
      ([b0, b1, b2, b3, b4, b5, b6, b7] :: (asChunks8 rest).1,
        (asChunks8 rest).2) := rfl

theorem asChunks8_short (l : List Nat) (h : l.length < 8) :
    asChunks8 l = ([], l) := by
  rw [asChunks8.eq_def]
  split
  · simp only [List.length_cons] at h
    omega
  · rfl

theorem asChunks8_snd_length (s : List Nat) : (asChunks8 s).2.length < 8 := by
  induction s using chunk_induction with
  | hnil => decide
  | hshort l hne hlt => rw [asChunks8_short l hlt]; exact hlt
  | hcons b0 b1 b2 b3 b4 b5 b6 b7 rest ih => rw [asChunks8_cons]; exact ih

theorem zeroPaddedWords_short (l : List Nat) (hne : l ≠ []) (h : l.length < 8) :
    zeroPaddedWords l =
      [u64_from_le_bytes (l ++ List.replicate (8 - l.length) 0x00)] := by
  rw [zeroPaddedWords.eq_def]
  split
  · exact absurd rfl hne
  · simp only [List.length_cons] at h
    omega
  · rfl

theorem ffPaddedWords_short (l : List Nat) (h : l.length < 8) :
    ffPaddedWords l =
      [u64_from_le_bytes (l ++ List.replicate (8 - l.length) 0xFF)] := by
  rw [ffPaddedWords.eq_def]
  split
  · simp only [List.length_cons] at h
    omega
  · rfl

/-- A reachable `SipHasher` has fewer than 8 pending tail bytes: `write`
either leaves `ntail` unchanged or sets it to the length of an `as_chunks`
remainder. -/
theorem reachable_ntail_lt (C : Nat) (h : SipHasher) (hr : Reachable C h) :
    h.ntail < 8 := by
  induction hr with
  | new_keys k0 k1 h0 h1 =>
    show (0 : Nat) < 8
    decide
  | write_step h s hh hs ih =>
    simp only [SipHasher.write]
    split
    · split
      · exact asChunks8_snd_length _
      · exact ih
    · exact asChunks8_snd_length _

/-- Sanity check of the state-engine embedding: feeding the two message
words of the SipHash-2-4 reference vector (first chunk, then the canonical
final word `0x0f0e0d0c0b0a0908` carrying bytes 8..14 and the length tag 15)
through `update_and_round` and `update_and_final` yields the published
digest `0xa129ca6149be45e5`. -/
theorem state_pipeline_reference_vector :
    SipHashState.update_and_final 4
      (SipHashState.update_and_round 2
        (SipHashState.update_and_round 2
          (SipHashState.from_keys 0x0706050403020100 0x0f0e0d0c0b0a0908)
          0x0706050403020100)
        0x0f0e0d0c0b0a0908) = 0xa129ca6149be45e5 := by decide

/-- C1: writing the 15 bytes `0x00..0x0E` to a `SipHasher<2, 4>` keyed with
the reference keys and finishing returns `0x6102b4a226a1cee8`, not the
expected reference digest `0xa129ca6149be45e5`: the trailing 7-byte
remainder is copied into a local array instead of `self.tail`, so `finish`
builds its final word from a zero tail. -/
theorem C1_known_answer_vector :
    SipHasher.finish 2 4
      (SipHasher.write 2
        (SipHasher.new_with_keys 0x0706050403020100 0x0f0e0d0c0b0a0908)
        [0x00, 0x01, 0x02, 0x03, 0x04, 0x05, 0x06, 0x07, 0x08, 0x09, 0x0A,
          0x0B, 0x0C, 0x0D, 0x0E]) = 0x6102b4a226a1cee8 ∧
    (0x6102b4a226a1cee8 : Nat) ≠ 0xa129ca6149be45e5 := by
  constructor
  · decide
  · decide

/-- C2: the trailing remainder of a `write` is not stored into the hasher's
tail buffer: writing the single byte `0x01` and writing the single byte
`0x02` to a fresh hasher produce identical hasher states (`ntail` becomes 1
but `tail` stays 0), so the remainder byte can never be incorporated
later. -/
theorem C2_write_remainder_dropped :
    (SipHasher.write 2
      (SipHasher.new_with_keys 0x0706050403020100 0x0f0e0d0c0b0a0908)
      [0x01]).ntail = 1 ∧
    (SipHasher.write 2
      (SipHasher.new_with_keys 0x0706050403020100 0x0f0e0d0c0b0a0908)
      [0x01]).tail = 0 ∧
    SipHasher.write 2
      (SipHasher.new_with_keys 0x0706050403020100 0x0f0e0d0c0b0a0908)
      [0x01] =
    SipHasher.write 2
      (SipHasher.new_with_keys 0x0706050403020100 0x0f0e0d0c0b0a0908)
      [0x02] := by
  refine ⟨by decide, by decide, by decide⟩

/-- C3: incremental equivalence fails: hashing the 9 bytes `1..9` in one
`write` call and hashing the 1-byte prefix then the 8-byte suffix in two
calls produce different digests (the one-call path absorbs the chunk
`bytes 1..8` while the split path absorbs the stale-tail word with byte 1
lost). -/
theorem C3_incremental_split_differs :
    SipHasher.finish 2 4
      (SipHasher.write 2
        (SipHasher.new_with_keys 0x0706050403020100 0x0f0e0d0c0b0a0908)
        [1, 2, 3, 4, 5, 6, 7, 8, 9]) = 0x83e531101ae395be ∧
    SipHasher.finish 2 4
      (SipHasher.write 2
        (SipHasher.write 2
          (SipHasher.new_with_keys 0x0706050403020100 0x0f0e0d0c0b0a0908)
          [1])
        [2, 3, 4, 5, 6, 7, 8, 9]) = 0xc5c5266dbb8dfe69 ∧
    (0x83e531101ae395be : Nat) ≠ 0xc5c5266dbb8dfe69 := by
  refine ⟨by decide, by decide, by decide⟩

/-- C4: in the `sse3`-without-`avx2` build configuration, one `round()` does
not transform the logical words as the canonical scalar ARX sequence (the
composed-shift `rotate_lanes_epi64` applies each lane's right-shift amount
to the other lane), whereas the `avx2` realization of the same `round()`
does match it — witnessed at the state `from_keys(0, 0)`. -/
theorem C4_round_sse3_deviates_from_canonical :
    toLogical (SipHashState.round_sse3 (SipHashState.from_keys 0 0)) ≠
      specRound (toLogical (SipHashState.from_keys 0 0)) ∧
    toLogical (SipHashState.round (SipHashState.from_keys 0 0)) =
      specRound (toLogical (SipHashState.from_keys 0 0)) := by
  constructor
  · decide
  · decide

/-- C8: `finish` is non-destructive for both hashers: inserting a `finish`
operation into a trace leaves the hasher state of the remaining trace
unchanged and only records the digest of the current state; two consecutive
`finish` operations record equal values and return the instance
unchanged. -/
theorem C8_finish_is_nondestructive (C D : Nat) (hs : SipHasher)
    (hr : RawSipHasher) (ops : List StreamOp) (rops : List RawOp) :
    SipHasher.runOps C D hs (StreamOp.finish :: ops) =
      ((SipHasher.runOps C D hs ops).1,
        SipHasher.finish C D hs :: (SipHasher.runOps C D hs ops).2) ∧
    (SipHasher.runOps C D hs [StreamOp.finish, StreamOp.finish]).2 =
      [SipHasher.finish C D hs, SipHasher.finish C D hs] ∧
    (SipHasher.runOps C D hs [StreamOp.finish, StreamOp.finish]).1 = hs ∧
    RawSipHasher.runOps C D hr (RawOp.finish :: rops) =
      ((RawSipHasher.runOps C D hr rops).1,
        RawSipHasher.finish D hr :: (RawSipHasher.runOps C D hr rops).2) ∧
    (RawSipHasher.runOps C D hr [RawOp.finish, RawOp.finish]).2 =
      [RawSipHasher.finish D hr, RawSipHasher.finish D hr] ∧
    (RawSipHasher.runOps C D hr [RawOp.finish, RawOp.finish]).1 = hr := by
  refine ⟨rfl, rfl, rfl, rfl, rfl, rfl⟩

/-- C10: every `SipHasher` state reachable from `new_with_keys` by `write`
calls has `ntail < 8`, so the `ntail == 8` special case tested in `finish`
is never exercised. -/
theorem C10_reachable_ntail_lt_eight (C : Nat) (h : SipHasher)
    (hr : Reachable C h) : h.ntail < 8 :=
  reachable_ntail_lt C h hr

/-- Witness for C10 at the freshly constructed hasher with keys 0, 0. -/
theorem C10_reachable_ntail_lt_eight_witness :
    (SipHasher.new_with_keys 0 0).ntail < 8 :=
  C10_reachable_ntail_lt_eight 2 (SipHasher.new_with_keys 0 0)
    (Reachable.new_keys 0 0 (by decide) (by decide))

/-- The wrapping mask computation `(2u64 << ((ntail << 3) - 1)) - 1` of
`SipHasher::finish` equals the low-`ntail`-bytes mask for the reachable
tail lengths `1..7`. -/
theorem finish_mask_eq (k : Nat) (h1 : 0 < k) (h2 : k < 8) :
    usub ((2 <<< ((k <<< 3) - 1)) % two64) 1 = 2 ^ (8 * k) - 1 := by
  interval_cases k <;> decide

/-- The expression `(bytes as u64) & 0xFF` equals `bytes % 256`. -/
theorem byte_tag_eq (b : Nat) : (b % two64) &&& 0xFF = b % 256 := by
  have h1 := Nat.and_pow_two_sub_one_eq_mod (b % two64) 8
  norm_num at h1
  rw [h1]
  exact Nat.mod_mod_of_dvd b (by decide)

/-- C5: on every reachable `SipHasher` state, `finish` computes exactly the
spec-described pipeline: the final message word of `finalWordSpec` (tail
masked to its `ntail` low bytes, length tag or-ed into the top byte unless
`ntail == 8`, or the dedicated tag-only word when `ntail == 0`) fed through
`update`, then `update_before_final`, `D` rounds and the state xor. -/
theorem C5_finish_builds_spec_final_word (C D : Nat) (h : SipHasher)
    (hr : Reachable C h) :
    SipHasher.finish C D h =
      SipHashState.update_and_final D
        (SipHashState.update_and_round C h.state (finalWordSpec h)) := by
  have hnt := reachable_ntail_lt C h hr
  by_cases h0 : 0 < h.ntail
  · have h8 : h.ntail ≠ 8 := by omega
    unfold SipHasher.finish finalWordSpec SipHasher.update
    simp only [if_pos h0, if_pos h8, if_neg h8]
    rw [finish_mask_eq h.ntail h0 hnt, Nat.and_pow_two_sub_one_eq_mod,
      byte_tag_eq]
  · unfold SipHasher.finish finalWordSpec SipHasher.update
    simp only [if_neg h0]
    rw [byte_tag_eq]

/-- Witness for C5 at a reachable state with three pending tail bytes. -/
theorem C5_finish_builds_spec_final_word_witness :
    SipHasher.finish 2 4
      (SipHasher.write 2 (SipHasher.new_with_keys 0 0) [1, 2, 3]) =
      SipHashState.update_and_final 4
        (SipHashState.update_and_round 2
          (SipHasher.write 2 (SipHasher.new_with_keys 0 0) [1, 2, 3]).state
          (finalWordSpec
            (SipHasher.write 2 (SipHasher.new_with_keys 0 0) [1, 2, 3]))) :=
  C5_finish_builds_spec_final_word 2 4
    (SipHasher.write 2 (SipHasher.new_with_keys 0 0) [1, 2, 3])
    (Reachable.write_step (SipHasher.new_with_keys 0 0) [1, 2, 3]
      (Reachable.new_keys 0 0 (by decide) (by decide)) (by decide))

/-- The value `(2u64 << ((ntail << 3) - 1))` is nonzero for the reachable
tail lengths, so the subsequent `u64` subtraction of 1 cannot underflow. -/
theorem finish_mask_no_underflow (k : Nat) (h1 : 0 < k) (h2 : k < 8) :
    1 ≤ (2 <<< ((k <<< 3) - 1)) % two64 := by
  interval_cases k <;> decide

/-- C9: the panic-prone arithmetic of the hashers is safe on every reachable
state: the tail top-up in `write` never writes past the 8-byte tail window,
and in `finish` the `usize` subtraction `(ntail << 3) - 1` cannot
underflow, both `u64` shift amounts stay below 64, and the wrapping mask
subtraction cannot underflow.  (All remaining operations are total by
construction in this embedding.) -/
theorem C9_reachable_arithmetic_safe (C n : Nat) (h : SipHasher)
    (hr : Reachable C h) :
    h.ntail + min n (8 - h.ntail) ≤ 8 ∧
    (0 < h.ntail →
      1 ≤ h.ntail <<< 3 ∧
      (h.ntail <<< 3) - 1 < 64 ∧
      (8 - h.ntail) <<< 3 < 64 ∧
      1 ≤ (2 <<< ((h.ntail <<< 3) - 1)) % two64) := by
  have hnt := reachable_ntail_lt C h hr
  have e1 : h.ntail <<< 3 = h.ntail * 8 := by
    rw [Nat.shiftLeft_eq]
  have e2 : (8 - h.ntail) <<< 3 = (8 - h.ntail) * 8 := by
    rw [Nat.shiftLeft_eq]
  refine ⟨by omega, fun h0 => ⟨by omega, by omega, by omega,
    finish_mask_no_underflow h.ntail h0 hnt⟩⟩

/-- Witness for C9 at a reachable state with three pending tail bytes. -/
theorem C9_reachable_arithmetic_safe_witness :
    (SipHasher.write 2 (SipHasher.new_with_keys 0 0) [1, 2, 3]).ntail +
      min 5 (8 - (SipHasher.write 2 (SipHasher.new_with_keys 0 0)
        [1, 2, 3]).ntail) ≤ 8 ∧
    (1 ≤ (SipHasher.write 2 (SipHasher.new_with_keys 0 0) [1, 2, 3]).ntail <<< 3 ∧
      ((SipHasher.write 2 (SipHasher.new_with_keys 0 0) [1, 2, 3]).ntail <<< 3)
        - 1 < 64 ∧
      (8 - (SipHasher.write 2 (SipHasher.new_with_keys 0 0)
        [1, 2, 3]).ntail) <<< 3 < 64 ∧
      1 ≤ (2 <<< (((SipHasher.write 2 (SipHasher.new_with_keys 0 0)
        [1, 2, 3]).ntail <<< 3) - 1)) % two64) :=
  ⟨(C9_reachable_arithmetic_safe 2 5
      (SipHasher.write 2 (SipHasher.new_with_keys 0 0) [1, 2, 3])
      (Reachable.write_step (SipHasher.new_with_keys 0 0) [1, 2, 3]
        (Reachable.new_keys 0 0 (by decide) (by decide)) (by decide))).1,
    (C9_reachable_arithmetic_safe 2 5
      (SipHasher.write 2 (SipHasher.new_with_keys 0 0) [1, 2, 3])
      (Reachable.write_step (SipHasher.new_with_keys 0 0) [1, 2, 3]
        (Reachable.new_keys 0 0 (by decide) (by decide)) (by decide))).2
      (by decide)⟩

/-- The operation `update_from_bytes` performs exactly the `update` calls described by the
spec-side word sequence `zeroPaddedWords`. -/
theorem update_from_bytes_eq (C : Nat) (l : List Nat) :
    ∀ h : RawSipHasher,
      RawSipHasher.update_from_bytes C h l =
        List.foldl (RawSipHasher.update C) h (zeroPaddedWords l) := by
  induction l using chunk_induction with
  | hnil => intro h; rfl
  | hshort l hne hlt =>
    intro h
    rw [zeroPaddedWords_short l hne hlt]
    simp only [RawSipHasher.update_from_bytes, asChunks8_short l hlt,
      List.foldl_nil, List.foldl_cons, if_pos hne]
  | hcons b0 b1 b2 b3 b4 b5 b6 b7 rest ih =>
    intro h
    have hih := ih
      (RawSipHasher.update C h (u64_from_le_bytes [b0, b1, b2, b3, b4, b5, b6, b7]))
    simp only [RawSipHasher.update_from_bytes, asChunks8_cons,
      List.foldl_cons] at hih ⊢
    rw [show zeroPaddedWords (b0 :: b1 :: b2 :: b3 :: b4 :: b5 :: b6 :: b7 :: rest) =
      u64_from_le_bytes [b0, b1, b2, b3, b4, b5, b6, b7] ::
        zeroPaddedWords rest from rfl, List.foldl_cons]
    exact hih

/-- When the input length is a multiple of 8, the spec-side word sequence has
exactly `length / 8` words: no extra padding block is appended. -/
theorem zeroPaddedWords_length_of_dvd (l : List Nat) (hd : l.length % 8 = 0) :
    (zeroPaddedWords l).length = l.length / 8 := by
  induction l using chunk_induction with
  | hnil => rfl
  | hshort l hne hlt =>
    exact absurd hd (by have := List.length_pos.mpr hne; omega)
  | hcons b0 b1 b2 b3 b4 b5 b6 b7 rest ih =>
    simp only [List.length_cons] at hd ⊢
    rw [show zeroPaddedWords (b0 :: b1 :: b2 :: b3 :: b4 :: b5 :: b6 :: b7 :: rest) =
      u64_from_le_bytes [b0, b1, b2, b3, b4, b5, b6, b7] ::
        zeroPaddedWords rest from rfl]
    simp only [List.length_cons]
    rw [ih (by omega)]
    omega

/-- C6: `update_from_bytes` feeds the state exactly the little-endian words
of the consecutive 8-byte chunks, with a nonzero remainder zero-padded into
one extra word, and — when the length is an exact multiple of 8 — exactly
`length / 8` words and no extra padding block. -/
theorem C6_update_from_bytes_chunking (C : Nat) (h : RawSipHasher)
    (l : List Nat) :
    RawSipHasher.update_from_bytes C h l =
      List.foldl (RawSipHasher.update C) h (zeroPaddedWords l) ∧
    (l.length % 8 = 0 → (zeroPaddedWords l).length = l.length / 8) :=
  ⟨update_from_bytes_eq C l h, fun hd => zeroPaddedWords_length_of_dvd l hd⟩

/-- Witness for C6 on a 16-byte input (an exact multiple of 8). -/
theorem C6_update_from_bytes_chunking_witness :
    RawSipHasher.update_from_bytes 2 (RawSipHasher.from_keys 0 0)
        [1, 2, 3, 4, 5, 6, 7, 8, 9, 10, 11, 12, 13, 14, 15, 16] =
      List.foldl (RawSipHasher.update 2) (RawSipHasher.from_keys 0 0)
        (zeroPaddedWords
          [1, 2, 3, 4, 5, 6, 7, 8, 9, 10, 11, 12, 13, 14, 15, 16]) ∧
    (zeroPaddedWords [1, 2, 3, 4, 5, 6, 7, 8, 9, 10, 11, 12, 13, 14, 15,
      16]).length =
      ([1, 2, 3, 4, 5, 6, 7, 8, 9, 10, 11, 12, 13, 14, 15,
        16] : List Nat).length / 8 :=
  ⟨(C6_update_from_bytes_chunking 2 (RawSipHasher.from_keys 0 0)
      [1, 2, 3, 4, 5, 6, 7, 8, 9, 10, 11, 12, 13, 14, 15, 16]).1,
    (C6_update_from_bytes_chunking 2 (RawSipHasher.from_keys 0 0)
      [1, 2, 3, 4, 5, 6, 7, 8, 9, 10, 11, 12, 13, 14, 15, 16]).2 (by decide)⟩

/-- The operation `update_from_string` performs exactly the `update` calls described by the
spec-side word sequence `ffPaddedWords`. -/
theorem update_from_string_eq (C : Nat) (l : List Nat) :
    ∀ h : RawSipHasher,
      RawSipHasher.update_from_string C h l =
        List.foldl (RawSipHasher.update C) h (ffPaddedWords l) := by
  induction l using chunk_induction with
  | hnil => intro h; rfl
  | hshort l hne hlt =>
    intro h
    rw [ffPaddedWords_short l hlt]
    simp only [RawSipHasher.update_from_string, asChunks8_short l hlt,
      List.foldl_nil, List.foldl_cons]
  | hcons b0 b1 b2 b3 b4 b5 b6 b7 rest ih =>
    intro h
    have hih := ih
      (RawSipHasher.update C h (u64_from_le_bytes [b0, b1, b2, b3, b4, b5, b6, b7]))
    simp only [RawSipHasher.update_from_string, asChunks8_cons,
      List.foldl_cons] at hih ⊢
    rw [show ffPaddedWords (b0 :: b1 :: b2 :: b3 :: b4 :: b5 :: b6 :: b7 :: rest) =
      u64_from_le_bytes [b0, b1, b2, b3, b4, b5, b6, b7] ::
        ffPaddedWords rest from rfl, List.foldl_cons]
    exact hih

theorem encodeString_length (s : List Nat) :
    (encodeString s).length = s.length + (8 - s.length % 8) := by
  simp [encodeString]

theorem encodeString_mod8 (s : List Nat) : (encodeString s).length % 8 = 0 := by
  rw [encodeString_length]
  omega

theorem asChunks8_len8 (l : List Nat) (h : l.length = 8) :
    asChunks8 l = ([l], []) := by
  obtain ⟨b0, b1, b2, b3, b4, b5, b6, b7, rest, rfl⟩ := eight_cons l (by omega)
  have hr : rest = [] := by
    simp only [List.length_cons] at h
    exact List.length_eq_zero.mp (by omega)
  subst hr
  rfl

theorem encodeString_cons (b0 b1 b2 b3 b4 b5 b6 b7 : Nat) (rest : List Nat) :
    encodeString (b0 :: b1 :: b2 :: b3 :: b4 :: b5 :: b6 :: b7 :: rest) =
      b0 :: b1 :: b2 :: b3 :: b4 :: b5 :: b6 :: b7 :: encodeString rest := by
  have hm : (rest.length + 1 + 1 + 1 + 1 + 1 + 1 + 1 + 1) % 8 =
      rest.length % 8 := by omega
  simp [encodeString, hm, List.cons_append]

/-- The word sequence of `update_from_string` is exactly the 8-byte chunking
of the byte-level encoding `encodeString` (which chunks evenly). -/
theorem ffPaddedWords_encode (l : List Nat) :
    ffPaddedWords l =
      (asChunks8 (encodeString l)).1.map u64_from_le_bytes ∧
    (asChunks8 (encodeString l)).2 = [] := by
  induction l using chunk_induction with
  | hnil => exact ⟨rfl, rfl⟩
  | hshort l hne hlt =>
    have hmod : l.length % 8 = l.length := Nat.mod_eq_of_lt hlt
    have h8 : (encodeString l).length = 8 := by
      rw [encodeString_length, hmod]
      have := List.length_pos.mpr hne
      omega
    rw [asChunks8_len8 _ h8, ffPaddedWords_short l hlt]
    constructor
    · simp only [List.map_cons, List.map_nil]
      rw [show encodeString l = l ++ List.replicate (8 - l.length) 0xFF by
        rw [encodeString, hmod]]
    · rfl
  | hcons b0 b1 b2 b3 b4 b5 b6 b7 rest ih =>
    rw [encodeString_cons, asChunks8_cons]
    refine ⟨?_, ih.2⟩
    simp only [List.map_cons]
    rw [show ffPaddedWords (b0 :: b1 :: b2 :: b3 :: b4 :: b5 :: b6 :: b7 :: rest) =
      u64_from_le_bytes [b0, b1, b2, b3, b4, b5, b6, b7] ::
        ffPaddedWords rest from rfl, ih.1]

/-- Every byte of the padding region of `encodeString` is `0xFF`. -/
theorem encodeString_pad_byte (s : List Nat) (i : Nat) (h1 : s.length ≤ i)
    (h2 : i < (encodeString s).length) :
    (encodeString s)[i]? = some 0xFF := by
  unfold encodeString
  rw [List.getElem?_append_right h1]
  apply List.getElem?_replicate_of_lt
  rw [encodeString_length] at h2
  omega

/-- If the encodings of two `0xFF`-free byte strings are equal, the strings
are equal: the shorter string would otherwise have to contain the first
padding byte of the longer one. -/
theorem encodeString_inj_aux (s t : List Nat) (ht : ∀ b ∈ t, b ≠ 255)
    (h : encodeString s = encodeString t) (hlt : s.length < t.length) :
    False := by
  have hi1 : s.length < (encodeString s).length := by
    rw [encodeString_length]
    omega
  have e1 : (encodeString s)[s.length]? = some 255 :=
    encodeString_pad_byte s s.length le_rfl hi1
  have e2 : (encodeString t)[s.length]? = t[s.length]? := by
    unfold encodeString
    exact List.getElem?_append_left hlt
  rw [h, e2] at e1
  exact ht 255 (List.getElem?_mem e1) rfl

/-- The operation `encodeString` is injective on `0xFF`-free byte strings. -/
theorem encodeString_inj (s t : List Nat) (hs : ∀ b ∈ s, b ≠ 255)
    (ht : ∀ b ∈ t, b ≠ 255) (h : encodeString s = encodeString t) : s = t := by
  rcases Nat.lt_trichotomy s.length t.length with hlt | heq | hgt
  · exact absurd (encodeString_inj_aux s t ht h hlt) not_false
  · have e1 : s = (encodeString s).take s.length := by
      unfold encodeString
      rw [List.take_left]
    have e2 : t = (encodeString t).take t.length := by
      unfold encodeString
      rw [List.take_left]
    rw [e1, e2, h, heq]
  · exact absurd (encodeString_inj_aux t s hs h.symm hgt) not_false

/-- A proper byte-prefix between two encodings is impossible when the longer
side is `0xFF`-free: both encodings are multiples of 8 bytes long, so the
gap is at least 8 bytes, yet the final padding byte of the shorter encoding
would have to occur inside the data bytes of the longer one. -/
theorem encodeString_proper_prefix_impossible (s t : List Nat)
    (ht : ∀ b ∈ t, b ≠ 255) (hpre : encodeString s <+: encodeString t)
    (hne : encodeString s ≠ encodeString t) : False := by
  obtain ⟨u, hu⟩ := hpre
  have hul : u ≠ [] := by
    rintro rfl
    rw [List.append_nil] at hu
    exact hne hu
  have hlen : (encodeString t).length = (encodeString s).length + u.length := by
    rw [← hu]
    simp
  have h8s := encodeString_mod8 s
  have h8t := encodeString_mod8 t
  have hu8 : 8 ≤ u.length := by
    have := List.length_pos.mpr hul
    omega
  have hL1 : 1 ≤ (encodeString s).length := by
    rw [encodeString_length]
    omega
  have hsL : s.length ≤ (encodeString s).length - 1 := by
    rw [encodeString_length]
    omega
  have e1 : (encodeString s)[(encodeString s).length - 1]? = some 255 :=
    encodeString_pad_byte s ((encodeString s).length - 1) hsL (by omega)
  have e2 : (encodeString t)[(encodeString s).length - 1]? = some 255 := by
    rw [← hu, List.getElem?_append_left (by omega)]
    exact e1
  by_cases hcase : (encodeString s).length - 1 < t.length
  · have e3 : (encodeString t)[(encodeString s).length - 1]? =
        t[(encodeString s).length - 1]? := by
      unfold encodeString
      exact List.getElem?_append_left hcase
    rw [e3] at e2
    exact ht 255 (List.getElem?_mem e2) rfl
  · have htlen : (encodeString t).length ≤ t.length + 8 := by
      rw [encodeString_length]
      omega
    omega

/-- C7: `update_from_string` performs the chunked `update` calls of the
spec-side word sequence `ffPaddedWords`; that word sequence is exactly the
8-byte chunking of the byte-level encoding `encodeString` (input bytes plus
1 to 8 `0xFF` padding bytes); and the encoding is prefix-free on distinct
`0xFF`-free byte strings (UTF-8 text never contains the byte `0xFF`). -/
theorem C7_update_from_string_prefix_free (C : Nat) (h : RawSipHasher)
    (s t : List Nat) (hs : ∀ b ∈ s, b < 256 ∧ b ≠ 255)
    (ht : ∀ b ∈ t, b < 256 ∧ b ≠ 255) (hst : s ≠ t) :
    RawSipHasher.update_from_string C h s =
      List.foldl (RawSipHasher.update C) h (ffPaddedWords s) ∧
    ffPaddedWords s =
      (asChunks8 (encodeString s)).1.map u64_from_le_bytes ∧
    ¬ encodeString s <+: encodeString t := by
  refine ⟨update_from_string_eq C s h, (ffPaddedWords_encode s).1, ?_⟩
  intro hpre
  rcases eq_or_ne (encodeString s) (encodeString t) with he | hne
  · exact hst (encodeString_inj s t (fun b hb => (hs b hb).2)
      (fun b hb => (ht b hb).2) he)
  · exact encodeString_proper_prefix_impossible s t (fun b hb => (ht b hb).2) hpre hne

/-- Witness for C7 on the distinct byte strings `[0]` and `[1]`. -/
theorem C7_update_from_string_prefix_free_witness :
    RawSipHasher.update_from_string 2 (RawSipHasher.from_keys 0 0) [0] =
      List.foldl (RawSipHasher.update 2) (RawSipHasher.from_keys 0 0)
        (ffPaddedWords [0]) ∧
    ffPaddedWords [0] =
      (asChunks8 (encodeString [0])).1.map u64_from_le_bytes ∧
    ¬ encodeString [0] <+: encodeString [1] :=
  C7_update_from_string_prefix_free 2 (RawSipHasher.from_keys 0 0) [0] [1]
    (by decide) (by decide) (by decide)

end LcccSiphash
